import Mathlib

set_option maxRecDepth 400000

/-!
Verification of the DBSCANvas dominant-color pipeline (src/DBSCANvas.py).

The source treats each pixel as a point in normalized RGB space, clusters the
points with DBSCAN, aggregates each non-noise cluster into a count and a
per-channel mean centroid, sorts the summaries by count descending, filters by
a minimum percentage of the total pixel count, and formats centroids as hex
color strings.  Channel values and distances are embedded as rationals; the
label array of the clusterer is embedded as a function from point indices to
integers, with -1 the noise sentinel exactly as in the source.
-/

/-- A point: one pixel as an ordered triple of (rational) channel values. -/
abbrev Pt : Type := ℚ × ℚ × ℚ

/-- Squared Euclidean distance between two points.  The source compares the
Euclidean distance against eps; over nonnegative eps this is equivalent to
comparing the squared distance against eps squared, which keeps all
computations inside the rationals. -/
def distSq (p q : Pt) : ℚ :=
  (p.1 - q.1) ^ 2 + (p.2.1 - q.2.1) ^ 2 + (p.2.2 - q.2.2) ^ 2

/-- NeighborIndex: the indices of all points whose distance to point `i` is at
most `eps` (inclusive, so `i` is always its own neighbor), in input order. -/
def nbrs (pixels : List Pt) (eps : ℚ) (i : Fin pixels.length) :
    List (Fin pixels.length) :=
  (List.finRange pixels.length).filter
    (fun j => decide (distSq (pixels.get i) (pixels.get j) ≤ eps * eps))

/-- Core-point test: the eps-neighborhood (which includes the point itself)
holds at least `minS` points. -/
def isCore (pixels : List Pt) (eps : ℚ) (minS : ℕ) (i : Fin pixels.length) :
    Bool :=
  decide (minS ≤ (nbrs pixels eps i).length)

/-- Fuel bound for the expansion loops: strictly larger than the loop measure
`worklist length + (n+2) * number of unlabeled points` can ever be at a call
site, so the fueled loops below always run to completion. -/
def dbFuel (n : ℕ) : ℕ := (n + 2) * (n + 1)

/-- Breadth-first cluster expansion, the reference semantics of spec section
4.2: pop the front of the frontier; a point that is still unlabeled (label -1,
covering both `unlabeled` and provisional `noise`, which the integer label
encoding of the source identifies) is claimed for cluster `cid`, and when it is
additionally a core point its whole neighborhood is appended to the frontier;
an already labeled point is skipped.  Fuel only bounds the recursion; it is
chosen large enough at every call site. -/
def expandF (pixels : List Pt) (eps : ℚ) (minS : ℕ) :
    ℕ → ℕ → (Fin pixels.length → Int) → List (Fin pixels.length) →
      (Fin pixels.length → Int)
  | _, _, L, [] => L
  | 0, _, L, _ :: _ => L
  | fuel + 1, cid, L, w :: W =>
    if L w = -1 then
      expandF pixels eps minS fuel cid (Function.update L w (cid : Int))
        (if isCore pixels eps minS w then W ++ nbrs pixels eps w else W)
    else
      expandF pixels eps minS fuel cid L W

/-- Modelled from the spec: depth-first cluster expansion with a stack, the
shape of the clustering loop inside the scikit-learn library call
`DBSCAN(eps, min_samples).fit` of `run_dbscan`, which is not part of src/.
A popped point that is still unlabeled is claimed for cluster `cid`; when it is
additionally a core point, those of its neighbors that are still unlabeled are
pushed onto the stack in neighborhood order (so they pop in reverse order);
labeled points pop off with no effect. -/
def expandB (pixels : List Pt) (eps : ℚ) (minS : ℕ) :
    ℕ → ℕ → (Fin pixels.length → Int) → List (Fin pixels.length) →
      (Fin pixels.length → Int)
  | _, _, L, [] => L
  | 0, _, L, _ :: _ => L
  | fuel + 1, cid, L, w :: S =>
    if L w = -1 then
      expandB pixels eps minS fuel cid (Function.update L w (cid : Int))
        (if isCore pixels eps minS w then
          ((nbrs pixels eps w).filter
            (fun v => decide (Function.update L w (cid : Int) v = -1))).reverse ++ S
         else S)
    else
      expandB pixels eps minS fuel cid L S

/-- Outer loop of the reference clusterer of spec section 4.2: points are
processed in input order; an unlabeled core point seeds a fresh cluster id,
is claimed, and its neighborhood becomes the breadth-first frontier.  An
unlabeled non-core point is provisionally noise, which the integer encoding
leaves as -1, so no state change is needed; a labeled point is skipped. -/
def outerSpec (pixels : List Pt) (eps : ℚ) (minS : ℕ) :
    List (Fin pixels.length) → (Fin pixels.length → Int) → ℕ →
      (Fin pixels.length → Int)
  | [], L, _ => L
  | i :: rest, L, cid =>
    if L i = -1 ∧ isCore pixels eps minS i = true then
      outerSpec pixels eps minS rest
        (expandF pixels eps minS (dbFuel pixels.length) cid
          (Function.update L i (cid : Int)) (nbrs pixels eps i))
        (cid + 1)
    else
      outerSpec pixels eps minS rest L cid

/-- Modelled from the spec: outer loop of the library clusterer called by
`run_dbscan` (absent from src/): points are visited in input order, a point
that is already labeled or is not a core point is skipped, and an unlabeled
core point seeds a fresh cluster id which is grown depth-first. -/
def outerImpl (pixels : List Pt) (eps : ℚ) (minS : ℕ) :
    List (Fin pixels.length) → (Fin pixels.length → Int) → ℕ →
      (Fin pixels.length → Int)
  | [], L, _ => L
  | i :: rest, L, cid =>
    if L i = -1 ∧ isCore pixels eps minS i = true then
      outerImpl pixels eps minS rest
        (expandB pixels eps minS (dbFuel pixels.length) cid L [i]) (cid + 1)
    else
      outerImpl pixels eps minS rest L cid

/-- Labels of the reference DBSCAN of spec section 4.2, one per point, in
input order; every point never claimed by a cluster stays -1 (noise). -/
def dbscanSpecLabels (pixels : List Pt) (eps : ℚ) (minS : ℕ) : List Int :=
  (List.finRange pixels.length).map
    (outerSpec pixels eps minS (List.finRange pixels.length) (fun _ => -1) 0)

/-- Labels of the clustering step of `run_dbscan` (the library DBSCAN call),
one per point, in input order. -/
def dbscanImplLabels (pixels : List Pt) (eps : ℚ) (minS : ℕ) : List Int :=
  (List.finRange pixels.length).map
    (outerImpl pixels eps minS (List.finRange pixels.length) (fun _ => -1) 0)

/-- Ascending insertion into a sorted list of labels. -/
def insertAsc (x : Int) : List Int → List Int
  | [] => [x]
  | y :: ys => if x ≤ y then x :: y :: ys else y :: insertAsc x ys

/-- Ascending insertion sort on labels. -/
def sortAsc (l : List Int) : List Int := l.foldr insertAsc []

/-- The distinct non-noise labels, mirroring `set(labels) - {-1}` of
`run_dbscan`; a CPython set of the small nonnegative cluster ids enumerates in
ascending order, which is modelled by sorting the deduplicated labels. -/
def uniqueLabels (labels : List Int) : List Int :=
  sortAsc ((labels.filter (fun k => decide (k ≠ -1))).dedup)

/-- The points carrying label `k`: `pixels[mask]` for the mask
`labels == k` of `run_dbscan`. -/
def clusterMembers (pixels : List Pt) (labels : List Int) (k : Int) :
    List Pt :=
  ((pixels.zip labels).filter (fun pl => decide (pl.2 = k))).map Prod.fst

/-- Per-channel arithmetic mean of a list of points:
`pixels[mask].mean(axis=0)` of `run_dbscan`, channel sum divided by count. -/
def centroid (ps : List Pt) : Pt :=
  ((ps.map (fun p => p.1)).sum / (ps.length : ℚ),
   (ps.map (fun p => p.2.1)).sum / (ps.length : ℚ),
   (ps.map (fun p => p.2.2)).sum / (ps.length : ℚ))

/-- ClusterAggregator: one `(count, centroid)` pair per distinct non-noise
label, as built by the loop over `unique_labels` in `run_dbscan`. -/
def aggregateClusters (pixels : List Pt) (labels : List Int) :
    List (ℕ × Pt) :=
  (uniqueLabels labels).map
    (fun k => ((clusterMembers pixels labels k).length,
               centroid (clusterMembers pixels labels k)))

/-- Stable descending insertion by count: `x` is placed before the first
element whose count does not exceed it, exactly the relative order produced by
the stable Python `sorted(results, key=lambda x: x[0], reverse=True)`. -/
def sortInsertDesc (x : ℕ × Pt) : List (ℕ × Pt) → List (ℕ × Pt)
  | [] => [x]
  | y :: ys => if y.1 ≤ x.1 then x :: y :: ys else y :: sortInsertDesc x ys

/-- Stable sort of cluster summaries by count, descending. -/
def sortByCountDesc (l : List (ℕ × Pt)) : List (ℕ × Pt) :=
  l.foldr sortInsertDesc []

/-- `run_dbscan`: cluster the pixels, aggregate each non-noise label into a
count and centroid, and sort by count descending. -/
def runDbscan (pixels : List Pt) (eps : ℚ) (minS : ℕ) : List (ℕ × Pt) :=
  sortByCountDesc
    (aggregateClusters pixels (dbscanImplLabels pixels eps minS))

/-- PaletteRanker output entries: count, centroid and percentage. -/
abbrev PaletteEntry : Type := ℕ × Pt × ℚ

/-- The percentage filter of the top-level presentation loop: each summary is
given `percentage = (count / total) * 100`, and entries with a percentage
below `minPct` are skipped; the surviving entries keep their order. -/
def presentPalette (colorCounts : List (ℕ × Pt)) (total : ℕ) (minPct : ℚ) :
    List PaletteEntry :=
  (colorCounts.map (fun cc => (cc.1, cc.2, ((cc.1 : ℚ) / (total : ℚ)) * 100))).filter
    (fun e => decide (¬ e.2.2 < minPct))

/-- Error taxonomy of the pipeline: only configuration errors exist. -/
inductive PaletteError : Type where
  | configurationError : PaletteError
deriving DecidableEq

/-- Modelled from the spec: the parameter validation performed inside the
scikit-learn `DBSCAN(eps, min_samples).fit` call of `run_dbscan`, which is
library code absent from src/.  A non-positive eps or a minSamples below one
is a configuration error surfaced before any clustering work; otherwise the
clustering pipeline runs. -/
def runDbscanChecked (pixels : List Pt) (eps : ℚ) (minS : ℕ) :
    Except PaletteError (List (ℕ × Pt)) :=
  if eps ≤ 0 ∨ minS < 1 then .error .configurationError
  else .ok (runDbscan pixels eps minS)

/-- The sixteen lowercase hexadecimal digit characters. -/
def hexDigits : List Char := "0123456789abcdef".toList

/-- The hexadecimal digit character of a value below sixteen. -/
def hexDigitChar (n : ℕ) : Char := hexDigits.getD n '0'

/-- Python `int(...)` applied to a rational: truncation toward zero. -/
def pyInt (q : ℚ) : Int := if 0 ≤ q then ⌊q⌋ else ⌈q⌉

/-- One channel of `(int(c * 255) for c in color)`. -/
def toByte (c : ℚ) : Int := pyInt (c * 255)

/-- The two lowercase hex digits of a byte, as produced by the fixed-width
format `{:02x}` for values in `[0, 255]`. -/
def byteHex (n : Int) : List Char :=
  [hexDigitChar (n.toNat / 16), hexDigitChar (n.toNat % 16)]

/-- ColorFormatter: the string built by
`'#{:02x}{:02x}{:02x}'.format(r, g, b)` from a centroid triple. -/
def hexColor (c : Pt) : String :=
  String.mk (('#' :: byteHex (toByte c.1)) ++ byteHex (toByte c.2.1) ++
    byteHex (toByte c.2.2))

/-- Lexicographic comparison of centroid channel triples, used only to state
the tie-breaking clause of the ranking claim. -/
def lexLE (a b : Pt) : Prop :=
  a.1 < b.1 ∨ (a.1 = b.1 ∧ (a.2.1 < b.2.1 ∨ (a.2.1 = b.2.1 ∧ a.2.2 ≤ b.2.2)))

instance (a b : Pt) : Decidable (lexLE a b) := by
  unfold lexLE
  infer_instance

/-- Number of still-unlabeled points; the loop measure of the expansion
loops, used only to show the fuel suffices. -/
def freeCount (pixels : List Pt) (L : Fin pixels.length → Int) : ℕ :=
  (Finset.univ.filter (fun i : Fin pixels.length => L i = -1)).card

/-- Density reachability relative to a label state `L`: `Reach L s q` holds
when there is a chain from `s` to `q` in which every node is unlabeled under
`L`, every node except possibly the endpoint is a core point, and consecutive
nodes are eps-neighbors.  A cluster expansion started at `s` claims exactly
the points reachable in this sense. -/
inductive Reach (pixels : List Pt) (eps : ℚ) (minS : ℕ)
    (L : Fin pixels.length → Int) :
    Fin pixels.length → Fin pixels.length → Prop where
  | refl (s : Fin pixels.length) (hs : L s = -1) : Reach pixels eps minS L s s
  | tail {s p q : Fin pixels.length} (hp : Reach pixels eps minS L s p)
      (hcore : isCore pixels eps minS p = true) (hq : q ∈ nbrs pixels eps p)
      (hfree : L q = -1) : Reach pixels eps minS L s q

/-- Reachability from any element of a worklist. -/
def ReachW (pixels : List Pt) (eps : ℚ) (minS : ℕ)
    (L : Fin pixels.length → Int) (W : List (Fin pixels.length))
    (q : Fin pixels.length) : Prop :=
  ∃ w ∈ W, Reach pixels eps minS L w q

/-! ## Basic facts about the clustering state -/

theorem natCast_ne_negOne (cid : ℕ) : (cid : Int) ≠ -1 := by omega

theorem nbrs_length_le (pixels : List Pt) (eps : ℚ) (i : Fin pixels.length) :
    (nbrs pixels eps i).length ≤ pixels.length := by
  calc (nbrs pixels eps i).length ≤ (List.finRange pixels.length).length :=
        List.length_filter_le _ _
    _ = pixels.length := List.length_finRange _

theorem freeCount_le (pixels : List Pt) (L : Fin pixels.length → Int) :
    freeCount pixels L ≤ pixels.length := by
  calc freeCount pixels L ≤ Finset.univ.card := Finset.card_filter_le _ _
    _ = pixels.length := by simp

theorem freeCount_pos (pixels : List Pt) (L : Fin pixels.length → Int)
    {w : Fin pixels.length} (hw : L w = -1) : 0 < freeCount pixels L := by
  apply Finset.card_pos.mpr
  exact ⟨w, Finset.mem_filter.mpr ⟨Finset.mem_univ _, hw⟩⟩

theorem freeCount_update (pixels : List Pt) (L : Fin pixels.length → Int)
    {w : Fin pixels.length} (hw : L w = -1) (cid : ℕ) :
    freeCount pixels (Function.update L w (cid : Int)) =
      freeCount pixels L - 1 := by
  unfold freeCount
  have hset : (Finset.univ.filter
        (fun i : Fin pixels.length => Function.update L w (cid : Int) i = -1))
      = (Finset.univ.filter (fun i : Fin pixels.length => L i = -1)).erase w := by
    ext i
    simp only [Finset.mem_filter, Finset.mem_erase, Finset.mem_univ, true_and,
      Function.update_apply]
    by_cases hiw : i = w
    · subst hiw
      simp [natCast_ne_negOne cid]
    · simp [hiw]
  rw [hset, Finset.card_erase_of_mem]
  exact Finset.mem_filter.mpr ⟨Finset.mem_univ _, hw⟩

/-! ## Reachability lemmas -/

theorem Reach.start_free {pixels : List Pt} {eps : ℚ} {minS : ℕ}
    {L : Fin pixels.length → Int} {s q : Fin pixels.length}
    (h : Reach pixels eps minS L s q) : L s = -1 := by
  induction h with
  | refl hs => exact hs
  | tail _ _ _ _ ih => exact ih

theorem Reach.end_free {pixels : List Pt} {eps : ℚ} {minS : ℕ}
    {L : Fin pixels.length → Int} {s q : Fin pixels.length}
    (h : Reach pixels eps minS L s q) : L q = -1 := by
  cases h with
  | refl hs => exact hs
  | tail _ _ _ hfree => exact hfree

theorem reachW_congr {pixels : List Pt} {eps : ℚ} {minS : ℕ}
    {L : Fin pixels.length → Int} {W₁ W₂ : List (Fin pixels.length)}
    (hmem : ∀ x, L x = -1 → (x ∈ W₁ ↔ x ∈ W₂)) (q : Fin pixels.length) :
    ReachW pixels eps minS L W₁ q ↔ ReachW pixels eps minS L W₂ q := by
  constructor
  · rintro ⟨w, hw, hr⟩
    exact ⟨w, (hmem w hr.start_free).mp hw, hr⟩
  · rintro ⟨w, hw, hr⟩
    exact ⟨w, (hmem w hr.start_free).mpr hw, hr⟩

theorem reachW_skip {pixels : List Pt} {eps : ℚ} {minS : ℕ}
    {L : Fin pixels.length → Int} {W : List (Fin pixels.length)}
    {w : Fin pixels.length} (hw : ¬ L w = -1) (q : Fin pixels.length) :
    ReachW pixels eps minS L (w :: W) q ↔ ReachW pixels eps minS L W q := by
  constructor
  · rintro ⟨w₀, hw₀, hr⟩
    rcases List.mem_cons.mp hw₀ with h | h
    · exact absurd hr.start_free (h ▸ hw)
    · exact ⟨w₀, h, hr⟩
  · rintro ⟨w₀, hw₀, hr⟩
    exact ⟨w₀, List.mem_cons_of_mem _ hw₀, hr⟩

theorem reach_claim_core_fwd {pixels : List Pt} {eps : ℚ} {minS : ℕ}
    {L : Fin pixels.length → Int} {w : Fin pixels.length}
    {W : List (Fin pixels.length)} (cid : ℕ)
    (hcore : isCore pixels eps minS w = true) :
    ∀ {w₀ q : Fin pixels.length}, Reach pixels eps minS L w₀ q →
      w₀ ∈ w :: W → q ≠ w →
      ReachW pixels eps minS (Function.update L w (cid : Int))
        (W ++ nbrs pixels eps w) q := by
  intro w₀ q h
  induction h with
  | refl hs =>
    intro hmem hq
    rcases List.mem_cons.mp hmem with h | h
    · exact absurd h hq
    · exact ⟨_, List.mem_append_left _ h,
        Reach.refl _ (by rwa [Function.update_noteq hq])⟩
  | tail hp hcorep hnbr hfree ih =>
    rename_i p q
    intro hmem hq
    by_cases hpw : p = w
    · subst hpw
      refine ⟨q, List.mem_append_right _ hnbr,
        Reach.refl _ (by rwa [Function.update_noteq hq])⟩
    · obtain ⟨u, hu, hr⟩ := ih hmem hpw
      exact ⟨u, hu, Reach.tail hr hcorep hnbr
        (by rwa [Function.update_noteq hq])⟩

theorem reach_claim_core_rev {pixels : List Pt} {eps : ℚ} {minS : ℕ}
    {L : Fin pixels.length → Int} {w : Fin pixels.length}
    {W : List (Fin pixels.length)} (cid : ℕ) (hw : L w = -1)
    (hcore : isCore pixels eps minS w = true) :
    ∀ {h₀ q : Fin pixels.length},
      Reach pixels eps minS (Function.update L w (cid : Int)) h₀ q →
      h₀ ∈ W ++ nbrs pixels eps w →
      ReachW pixels eps minS L (w :: W) q := by
  intro h₀ q h
  induction h with
  | refl hs =>
    intro hmem
    have hsw : h₀ ≠ w := by
      intro e
      rw [e, Function.update_same] at hs
      exact natCast_ne_negOne cid hs
    have hLs : L h₀ = -1 := by rwa [Function.update_noteq hsw] at hs
    rcases List.mem_append.mp hmem with h | h
    · exact ⟨h₀, List.mem_cons_of_mem _ h, Reach.refl _ hLs⟩
    · exact ⟨w, List.mem_cons_self _ _,
        Reach.tail (Reach.refl w hw) hcore h hLs⟩
  | tail hp hcorep hnbr hfree ih =>
    rename_i p q
    intro hmem
    obtain ⟨u, hu, hr⟩ := ih hmem
    have hqw : q ≠ w := by
      intro e
      rw [e, Function.update_same] at hfree
      exact natCast_ne_negOne cid hfree
    have hLq : L q = -1 := by rwa [Function.update_noteq hqw] at hfree
    exact ⟨u, hu, Reach.tail hr hcorep hnbr hLq⟩

theorem reach_claim_noncore_fwd {pixels : List Pt} {eps : ℚ} {minS : ℕ}
    {L : Fin pixels.length → Int} {w : Fin pixels.length}
    {W : List (Fin pixels.length)} (cid : ℕ)
    (hnc : ¬ isCore pixels eps minS w = true) :
    ∀ {w₀ q : Fin pixels.length}, Reach pixels eps minS L w₀ q →
      w₀ ∈ w :: W → q ≠ w →
      ReachW pixels eps minS (Function.update L w (cid : Int)) W q := by
  intro w₀ q h
  induction h with
  | refl hs =>
    intro hmem hq
    rcases List.mem_cons.mp hmem with h | h
    · exact absurd h hq
    · exact ⟨_, h, Reach.refl _ (by rwa [Function.update_noteq hq])⟩
  | tail hp hcorep hnbr hfree ih =>
    rename_i p q
    intro hmem hq
    by_cases hpw : p = w
    · exact absurd (hpw ▸ hcorep) hnc
    · obtain ⟨u, hu, hr⟩ := ih hmem hpw
      exact ⟨u, hu, Reach.tail hr hcorep hnbr
        (by rwa [Function.update_noteq hq])⟩

theorem reach_claim_noncore_rev {pixels : List Pt} {eps : ℚ} {minS : ℕ}
    {L : Fin pixels.length → Int} {w : Fin pixels.length}
    {W : List (Fin pixels.length)} (cid : ℕ) :
    ∀ {h₀ q : Fin pixels.length},
      Reach pixels eps minS (Function.update L w (cid : Int)) h₀ q →
      h₀ ∈ W → ReachW pixels eps minS L (w :: W) q := by
  intro h₀ q h
  induction h with
  | refl hs =>
    intro hmem
    have hsw : h₀ ≠ w := by
      intro e
      rw [e, Function.update_same] at hs
      exact natCast_ne_negOne cid hs
    exact ⟨h₀, List.mem_cons_of_mem _ hmem,
      Reach.refl _ (by rwa [Function.update_noteq hsw] at hs)⟩
  | tail hp hcorep hnbr hfree ih =>
    rename_i p q
    intro hmem
    obtain ⟨u, hu, hr⟩ := ih hmem
    have hqw : q ≠ w := by
      intro e
      rw [e, Function.update_same] at hfree
      exact natCast_ne_negOne cid hfree
    exact ⟨u, hu, Reach.tail hr hcorep hnbr
      (by rwa [Function.update_noteq hqw] at hfree)⟩

theorem reachW_claim_core {pixels : List Pt} {eps : ℚ} {minS : ℕ}
    {L : Fin pixels.length → Int} {w : Fin pixels.length}
    {W : List (Fin pixels.length)} (cid : ℕ) (hw : L w = -1)
    (hcore : isCore pixels eps minS w = true) {q : Fin pixels.length}
    (hq : q ≠ w) :
    ReachW pixels eps minS L (w :: W) q ↔
      ReachW pixels eps minS (Function.update L w (cid : Int))
        (W ++ nbrs pixels eps w) q := by
  constructor
  · rintro ⟨w₀, hm, hr⟩
    exact reach_claim_core_fwd cid hcore hr hm hq
  · rintro ⟨h₀, hm, hr⟩
    exact reach_claim_core_rev cid hw hcore hr hm

theorem reachW_claim_noncore {pixels : List Pt} {eps : ℚ} {minS : ℕ}
    {L : Fin pixels.length → Int} {w : Fin pixels.length}
    {W : List (Fin pixels.length)} (cid : ℕ)
    (hnc : ¬ isCore pixels eps minS w = true) {q : Fin pixels.length}
    (hq : q ≠ w) :
    ReachW pixels eps minS L (w :: W) q ↔
      ReachW pixels eps minS (Function.update L w (cid : Int)) W q := by
  constructor
  · rintro ⟨w₀, hm, hr⟩
    exact reach_claim_noncore_fwd cid hnc hr hm hq
  · rintro ⟨h₀, hm, hr⟩
    exact reach_claim_noncore_rev cid hr hm

open Classical in
theorem expandF_char {pixels : List Pt} {eps : ℚ} {minS : ℕ} :
    ∀ (fuel cid : ℕ) (L : Fin pixels.length → Int)
      (W : List (Fin pixels.length)),
      W.length + (pixels.length + 2) * freeCount pixels L ≤ fuel →
      ∀ q, expandF pixels eps minS fuel cid L W q =
        if L q = -1 ∧ ReachW pixels eps minS L W q then (cid : Int)
        else L q := by
  intro fuel
  induction fuel with
  | zero =>
    intro cid L W hfuel q
    cases W with
    | nil =>
      rw [expandF, if_neg]
      rintro ⟨-, w, hw, -⟩
      exact List.not_mem_nil w hw
    | cons w W =>
      simp only [List.length_cons] at hfuel
      omega
  | succ fuel ih =>
    intro cid L W hfuel q
    cases W with
    | nil =>
      rw [expandF, if_neg]
      rintro ⟨-, w, hw, -⟩
      exact List.not_mem_nil w hw
    | cons w W =>
      simp only [List.length_cons] at hfuel
      by_cases hw : L w = -1
      · obtain ⟨f, hf⟩ : ∃ f, freeCount pixels L = f + 1 :=
          ⟨freeCount pixels L - 1, by
            have := freeCount_pos pixels L hw; omega⟩
        have hupd : freeCount pixels (Function.update L w (cid : Int)) = f := by
          rw [freeCount_update pixels L hw cid, hf]
          omega
        rw [hf, Nat.mul_succ] at hfuel
        by_cases hcore : isCore pixels eps minS w = true
        · have hlen := nbrs_length_le pixels eps w
          have hfuel2 : (W ++ nbrs pixels eps w).length +
              (pixels.length + 2) *
                freeCount pixels (Function.update L w (cid : Int)) ≤ fuel := by
            rw [List.length_append, hupd]
            omega
          rw [expandF, if_pos hw, if_pos hcore, ih _ _ _ hfuel2]
          by_cases hq : q = w
          · subst hq
            have h1 : ¬(Function.update L q (cid : Int) q = -1 ∧
                ReachW pixels eps minS (Function.update L q (cid : Int))
                  (W ++ nbrs pixels eps q) q) := by
              rintro ⟨h, -⟩
              rw [Function.update_same] at h
              exact natCast_ne_negOne cid h
            have h2 : L q = -1 ∧ ReachW pixels eps minS L (q :: W) q :=
              ⟨hw, q, List.mem_cons_self _ _, Reach.refl _ hw⟩
            rw [if_neg h1, if_pos h2, Function.update_same]
          · rw [Function.update_noteq hq]
            exact if_congr
              (and_congr Iff.rfl (reachW_claim_core cid hw hcore hq).symm)
              rfl rfl
        · have hfuel2 : W.length + (pixels.length + 2) *
              freeCount pixels (Function.update L w (cid : Int)) ≤ fuel := by
            rw [hupd]
            omega
          rw [expandF, if_pos hw, if_neg hcore, ih _ _ _ hfuel2]
          by_cases hq : q = w
          · subst hq
            have h1 : ¬(Function.update L q (cid : Int) q = -1 ∧
                ReachW pixels eps minS (Function.update L q (cid : Int)) W q) := by
              rintro ⟨h, -⟩
              rw [Function.update_same] at h
              exact natCast_ne_negOne cid h
            have h2 : L q = -1 ∧ ReachW pixels eps minS L (q :: W) q :=
              ⟨hw, q, List.mem_cons_self _ _, Reach.refl _ hw⟩
            rw [if_neg h1, if_pos h2, Function.update_same]
          · rw [Function.update_noteq hq]
            exact if_congr
              (and_congr Iff.rfl (reachW_claim_noncore cid hcore hq).symm)
              rfl rfl
      · have hfuel2 : W.length + (pixels.length + 2) * freeCount pixels L
            ≤ fuel := by omega
        rw [expandF, if_neg hw, ih _ _ _ hfuel2]
        exact if_congr (and_congr Iff.rfl (reachW_skip hw q).symm) rfl rfl

open Classical in
theorem expandB_char {pixels : List Pt} {eps : ℚ} {minS : ℕ} :
    ∀ (fuel cid : ℕ) (L : Fin pixels.length → Int)
      (W : List (Fin pixels.length)),
      W.length + (pixels.length + 2) * freeCount pixels L ≤ fuel →
      ∀ q, expandB pixels eps minS fuel cid L W q =
        if L q = -1 ∧ ReachW pixels eps minS L W q then (cid : Int)
        else L q := by
  intro fuel
  induction fuel with
  | zero =>
    intro cid L W hfuel q
    cases W with
    | nil =>
      rw [expandB, if_neg]
      rintro ⟨-, w, hw, -⟩
      exact List.not_mem_nil w hw
    | cons w W =>
      simp only [List.length_cons] at hfuel
      omega
  | succ fuel ih =>
    intro cid L W hfuel q
    cases W with
    | nil =>
      rw [expandB, if_neg]
      rintro ⟨-, w, hw, -⟩
      exact List.not_mem_nil w hw
    | cons w W =>
      simp only [List.length_cons] at hfuel
      by_cases hw : L w = -1
      · obtain ⟨f, hf⟩ : ∃ f, freeCount pixels L = f + 1 :=
          ⟨freeCount pixels L - 1, by
            have := freeCount_pos pixels L hw; omega⟩
        have hupd : freeCount pixels (Function.update L w (cid : Int)) = f := by
          rw [freeCount_update pixels L hw cid, hf]
          omega
        rw [hf, Nat.mul_succ] at hfuel
        by_cases hcore : isCore pixels eps minS w = true
        · have hlen := nbrs_length_le pixels eps w
          have hfuel2 : (((nbrs pixels eps w).filter
                (fun v => decide (Function.update L w (cid : Int) v = -1))).reverse
                  ++ W).length +
              (pixels.length + 2) *
                freeCount pixels (Function.update L w (cid : Int)) ≤ fuel := by
            rw [List.length_append, List.length_reverse, hupd]
            have := List.length_filter_le
              (fun v => decide (Function.update L w (cid : Int) v = -1))
              (nbrs pixels eps w)
            omega
          rw [expandB, if_pos hw, if_pos hcore, ih _ _ _ hfuel2]
          have hmemiff : ∀ x, Function.update L w (cid : Int) x = -1 →
              (x ∈ ((nbrs pixels eps w).filter
                  (fun v => decide (Function.update L w (cid : Int) v = -1))).reverse
                    ++ W ↔
               x ∈ W ++ nbrs pixels eps w) := by
            intro x hx
            simp only [List.mem_append, List.mem_reverse, List.mem_filter,
              decide_eq_true_eq]
            constructor
            · rintro (⟨h, -⟩ | h)
              · exact Or.inr h
              · exact Or.inl h
            · rintro (h | h)
              · exact Or.inr h
              · exact Or.inl ⟨h, hx⟩
          by_cases hq : q = w
          · subst hq
            have h1 : ¬(Function.update L q (cid : Int) q = -1 ∧
                ReachW pixels eps minS (Function.update L q (cid : Int))
                  (((nbrs pixels eps q).filter
                    (fun v => decide (Function.update L q (cid : Int) v = -1))).reverse
                      ++ W) q) := by
              rintro ⟨h, -⟩
              rw [Function.update_same] at h
              exact natCast_ne_negOne cid h
            have h2 : L q = -1 ∧ ReachW pixels eps minS L (q :: W) q :=
              ⟨hw, q, List.mem_cons_self _ _, Reach.refl _ hw⟩
            rw [if_neg h1, if_pos h2, Function.update_same]
          · rw [Function.update_noteq hq]
            refine if_congr (and_congr Iff.rfl ?_) rfl rfl
            exact (reachW_congr hmemiff q).trans
              (reachW_claim_core cid hw hcore hq).symm
        · have hfuel2 : W.length + (pixels.length + 2) *
              freeCount pixels (Function.update L w (cid : Int)) ≤ fuel := by
            rw [hupd]
            omega
          rw [expandB, if_pos hw, if_neg hcore, ih _ _ _ hfuel2]
          by_cases hq : q = w
          · subst hq
            have h1 : ¬(Function.update L q (cid : Int) q = -1 ∧
                ReachW pixels eps minS (Function.update L q (cid : Int)) W q) := by
              rintro ⟨h, -⟩
              rw [Function.update_same] at h
              exact natCast_ne_negOne cid h
            have h2 : L q = -1 ∧ ReachW pixels eps minS L (q :: W) q :=
              ⟨hw, q, List.mem_cons_self _ _, Reach.refl _ hw⟩
            rw [if_neg h1, if_pos h2, Function.update_same]
          · rw [Function.update_noteq hq]
            exact if_congr
              (and_congr Iff.rfl (reachW_claim_noncore cid hcore hq).symm)
              rfl rfl
      · have hfuel2 : W.length + (pixels.length + 2) * freeCount pixels L
            ≤ fuel := by omega
        rw [expandB, if_neg hw, ih _ _ _ hfuel2]
        exact if_congr (and_congr Iff.rfl (reachW_skip hw q).symm) rfl rfl

open Classical in
theorem seed_eq {pixels : List Pt} {eps : ℚ} {minS : ℕ} (cid : ℕ)
    (L : Fin pixels.length → Int) (i : Fin pixels.length)
    (hi : L i = -1) (hcore : isCore pixels eps minS i = true) :
    expandF pixels eps minS (dbFuel pixels.length) cid
      (Function.update L i (cid : Int)) (nbrs pixels eps i) =
    expandB pixels eps minS (dbFuel pixels.length) cid L [i] := by
  funext q
  have hfuelsplit : dbFuel pixels.length =
      (pixels.length + 2) * pixels.length + (pixels.length + 2) := by
    unfold dbFuel
    ring
  have hfuelF : (nbrs pixels eps i).length + (pixels.length + 2) *
      freeCount pixels (Function.update L i (cid : Int)) ≤
        dbFuel pixels.length := by
    have hlen := nbrs_length_le pixels eps i
    have hmul : (pixels.length + 2) *
        freeCount pixels (Function.update L i (cid : Int)) ≤
          (pixels.length + 2) * pixels.length :=
      Nat.mul_le_mul_left _ (freeCount_le _ _)
    omega
  have hfuelB : (1 : ℕ) + (pixels.length + 2) * freeCount pixels L ≤
      dbFuel pixels.length := by
    have hmul : (pixels.length + 2) * freeCount pixels L ≤
        (pixels.length + 2) * pixels.length :=
      Nat.mul_le_mul_left _ (freeCount_le _ _)
    omega
  rw [expandF_char _ _ _ _ hfuelF q,
    expandB_char _ _ _ _ (by simpa using hfuelB) q]
  by_cases hq : q = i
  · subst hq
    have h1 : ¬(Function.update L q (cid : Int) q = -1 ∧
        ReachW pixels eps minS (Function.update L q (cid : Int))
          (nbrs pixels eps q) q) := by
      rintro ⟨h, -⟩
      rw [Function.update_same] at h
      exact natCast_ne_negOne cid h
    have h2 : L q = -1 ∧ ReachW pixels eps minS L [q] q :=
      ⟨hi, q, List.mem_singleton_self _, Reach.refl _ hi⟩
    rw [if_neg h1, if_pos h2, Function.update_same]
  · rw [Function.update_noteq hq]
    refine if_congr (and_congr Iff.rfl ?_) rfl rfl
    have h := (reachW_claim_core (W := ([] : List (Fin pixels.length)))
      cid hi hcore hq).symm
    simpa using h

theorem outer_eq {pixels : List Pt} {eps : ℚ} {minS : ℕ} :
    ∀ (il : List (Fin pixels.length)) (L : Fin pixels.length → Int)
      (cid : ℕ),
      outerSpec pixels eps minS il L cid =
        outerImpl pixels eps minS il L cid := by
  intro il
  induction il with
  | nil =>
    intro L cid
    rfl
  | cons i rest ih =>
    intro L cid
    rw [outerSpec, outerImpl]
    by_cases hc : L i = -1 ∧ isCore pixels eps minS i = true
    · rw [if_pos hc, if_pos hc, seed_eq cid L i hc.1 hc.2]
      exact ih _ _
    · rw [if_neg hc, if_neg hc]
      exact ih _ _

/-- C1: for every point sequence in a fixed order, every eps > 0 and every
minSamples at least 1, the labels produced by the clustering step of
`run_dbscan` (the library DBSCAN call, modelled as the stack-based
depth-first expansion `outerImpl`) agree point for point, in input order,
with the labels of the reference DBSCAN algorithm of spec section 4.2
(`outerSpec`): core points are those with at least minSamples points within
eps (themselves included), clusters grow from core points in input order,
a border point keeps the label of the first cluster reaching it, and every
unclaimed point stays noise. -/
theorem claim_C1_clustering_matches_reference (pixels : List Pt) (eps : ℚ)
    (minS : ℕ) (heps : 0 < eps) (hmin : 1 ≤ minS) :
    dbscanImplLabels pixels eps minS = dbscanSpecLabels pixels eps minS := by
  unfold dbscanImplLabels dbscanSpecLabels
  rw [outer_eq]

theorem claim_C1_witness :
    (0 : ℚ) < 1/10 ∧ (1 : ℕ) ≤ 1 ∧
      dbscanImplLabels [((1:ℚ),0,0), (0,0,0), ((1:ℚ)/2,0,0)] (1/10) 1 =
        dbscanSpecLabels [((1:ℚ),0,0), (0,0,0), ((1:ℚ)/2,0,0)] (1/10) 1 :=
  ⟨by norm_num, le_refl 1,
    claim_C1_clustering_matches_reference _ _ _ (by norm_num) (le_refl 1)⟩

/-! ## Sorting and aggregation lemmas -/

theorem sortInsertDesc_perm (x : ℕ × Pt) (l : List (ℕ × Pt)) :
    (sortInsertDesc x l).Perm (x :: l) := by
  induction l with
  | nil => exact List.Perm.refl _
  | cons y ys ih =>
    rw [sortInsertDesc]
    by_cases h : y.1 ≤ x.1
    · rw [if_pos h]
    · rw [if_neg h]
      exact (ih.cons y).trans (List.Perm.swap x y ys)

theorem sortByCountDesc_perm (l : List (ℕ × Pt)) :
    (sortByCountDesc l).Perm l := by
  induction l with
  | nil => exact List.Perm.refl _
  | cons x xs ih =>
    exact (sortInsertDesc_perm x (sortByCountDesc xs)).trans (ih.cons x)

theorem sortInsertDesc_sorted (x : ℕ × Pt) (l : List (ℕ × Pt))
    (hl : l.Sorted (fun a b => b.1 ≤ a.1)) :
    (sortInsertDesc x l).Sorted (fun a b => b.1 ≤ a.1) := by
  induction l with
  | nil => simp [sortInsertDesc]
  | cons y ys ih =>
    rcases List.sorted_cons.mp hl with ⟨hy, hys⟩
    rw [sortInsertDesc]
    by_cases h : y.1 ≤ x.1
    · rw [if_pos h]
      refine List.sorted_cons.mpr ⟨?_, hl⟩
      intro b hb
      rcases List.mem_cons.mp hb with rfl | hb
      · exact h
      · exact le_trans (hy b hb) h
    · rw [if_neg h]
      refine List.sorted_cons.mpr ⟨?_, ih hys⟩
      intro b hb
      have hb2 : b = x ∨ b ∈ ys := by
        have := (sortInsertDesc_perm x ys).mem_iff.mp hb
        simpa using this
      rcases hb2 with rfl | hb2
      · omega
      · exact hy b hb2

theorem sortByCountDesc_sorted (l : List (ℕ × Pt)) :
    (sortByCountDesc l).Sorted (fun a b => b.1 ≤ a.1) := by
  induction l with
  | nil => simp [sortByCountDesc]
  | cons x xs ih => exact sortInsertDesc_sorted x (sortByCountDesc xs) ih

theorem sortInsertDesc_filter_count (x : ℕ × Pt) (l : List (ℕ × Pt)) (c : ℕ) :
    (sortInsertDesc x l).filter (fun e => decide (e.1 = c)) =
      (x :: l).filter (fun e => decide (e.1 = c)) := by
  induction l with
  | nil => rfl
  | cons y ys ih =>
    rw [sortInsertDesc]
    by_cases h : y.1 ≤ x.1
    · rw [if_pos h]
    · rw [if_neg h]
      by_cases hy : y.1 = c
      · by_cases hx : x.1 = c
        · exact absurd (le_of_eq (hy.trans hx.symm)) h
        · simp [List.filter_cons, hy, hx, ih]
      · by_cases hx : x.1 = c
        · simp [List.filter_cons, hy, hx, ih]
        · simp [List.filter_cons, hy, hx, ih]

theorem sortByCountDesc_filter_count (l : List (ℕ × Pt)) (c : ℕ) :
    (sortByCountDesc l).filter (fun e => decide (e.1 = c)) =
      l.filter (fun e => decide (e.1 = c)) := by
  induction l with
  | nil => rfl
  | cons x xs ih =>
    have hstep : sortByCountDesc (x :: xs) =
        sortInsertDesc x (sortByCountDesc xs) := rfl
    rw [hstep, sortInsertDesc_filter_count, List.filter_cons,
      List.filter_cons, ih]

theorem insertAsc_perm (x : Int) (l : List Int) :
    (insertAsc x l).Perm (x :: l) := by
  induction l with
  | nil => exact List.Perm.refl _
  | cons y ys ih =>
    rw [insertAsc]
    by_cases h : x ≤ y
    · rw [if_pos h]
    · rw [if_neg h]
      exact (ih.cons y).trans (List.Perm.swap x y ys)

theorem sortAsc_perm (l : List Int) : (sortAsc l).Perm l := by
  induction l with
  | nil => exact List.Perm.refl _
  | cons x xs ih =>
    exact (insertAsc_perm x (sortAsc xs)).trans (ih.cons x)

theorem uniqueLabels_perm (labels : List Int) :
    (uniqueLabels labels).Perm
      ((labels.filter (fun k => decide (k ≠ -1))).dedup) :=
  sortAsc_perm _

theorem uniqueLabels_nodup (labels : List Int) :
    (uniqueLabels labels).Nodup :=
  (uniqueLabels_perm labels).nodup_iff.mpr (List.nodup_dedup _)

theorem mem_uniqueLabels (labels : List Int) (k : Int) :
    k ∈ uniqueLabels labels ↔ k ∈ labels ∧ k ≠ -1 := by
  rw [(uniqueLabels_perm labels).mem_iff, List.mem_dedup, List.mem_filter]
  simp

theorem clusterMembers_length (pixels : List Pt) (labels : List Int)
    (hlen : labels.length = pixels.length) (k : Int) :
    (clusterMembers pixels labels k).length = labels.count k := by
  unfold clusterMembers
  rw [List.length_map, ← List.countP_eq_length_filter]
  induction pixels generalizing labels with
  | nil =>
    cases labels with
    | nil => rfl
    | cons b bs => simp at hlen
  | cons p ps ih =>
    cases labels with
    | nil => simp at hlen
    | cons b bs =>
      rw [List.zip_cons_cons, List.countP_cons, List.count_cons,
        ih bs (by simpa using hlen)]
      simp only [beq_iff_eq, decide_eq_true_eq]

theorem sum_counts_eq (labels : List Int) :
    ((uniqueLabels labels).map (fun k => labels.count k)).sum =
      (labels.filter (fun k => decide (k ≠ -1))).length := by
  have hperm := ((uniqueLabels_perm labels).map (fun k => labels.count k))
  rw [hperm.sum_eq]
  have h1 : (labels.filter (fun k => decide (k ≠ -1))).dedup.map
        (fun k => labels.count k) =
      (labels.filter (fun k => decide (k ≠ -1))).dedup.map
        (fun k => (labels.filter (fun k => decide (k ≠ -1))).count k) := by
    apply List.map_congr_left
    intro k hk
    have hkf : k ∈ labels.filter (fun k => decide (k ≠ -1)) :=
      List.mem_dedup.mp hk
    have hpred := List.of_mem_filter hkf
    rw [List.count_filter (p := fun k => decide (k ≠ -1)) hpred]
  rw [h1]
  have h2 : (labels.filter (fun k => decide (k ≠ -1))).dedup.toFinset =
      (labels.filter (fun k => decide (k ≠ -1))).toFinset :=
    Finset.ext fun a => by simp [List.mem_toFinset, List.mem_dedup]
  calc ((labels.filter (fun k => decide (k ≠ -1))).dedup.map
        (fun k => (labels.filter (fun k => decide (k ≠ -1))).count k)).sum
      = (labels.filter (fun k => decide (k ≠ -1))).dedup.toFinset.sum
          (fun k => (labels.filter (fun k => decide (k ≠ -1))).count k) :=
        (List.sum_toFinset _ (List.nodup_dedup _)).symm
    _ = (labels.filter (fun k => decide (k ≠ -1))).toFinset.sum
          (fun k => (labels.filter (fun k => decide (k ≠ -1))).count k) := by
        rw [h2]
    _ = (labels.filter (fun k => decide (k ≠ -1))).length :=
        List.sum_toFinset_count_eq_length _

/-- C2 counterexample: the claim that equal-count entries are ordered by
lexicographic comparison of their centroids fails on the code.  Two one-point
clusters sort to a list whose first centroid is lexicographically larger than
the second: the ranking step orders ties by the label enumeration order, never
looking at centroids. -/
theorem claim_C2_counterexample :
    runDbscan [((1:ℚ),0,0), (0,0,0)] (1/10) 1 =
      [(1, ((1:ℚ),0,0)), (1, ((0:ℚ),0,0))] ∧
    sortByCountDesc [(1, ((1:ℚ),0,0)), (1, ((0:ℚ),0,0))] =
      [(1, ((1:ℚ),0,0)), (1, ((0:ℚ),0,0))] ∧
    ¬ lexLE ((1:ℚ),0,0) ((0:ℚ),0,0) := by
  refine ⟨?_, ?_, ?_⟩
  · with_unfolding_all decide
  · with_unfolding_all decide
  · with_unfolding_all decide

/-- C2 amended: the ranked output is sorted in descending order of count and
is a permutation of the aggregated input; two entries with equal count keep
the order in which the aggregation enumerated them (the sort is stable on
counts), rather than being compared by centroid channel values. -/
theorem claim_C2_ranking_sorted_stable (l : List (ℕ × Pt)) (c : ℕ) :
    (sortByCountDesc l).Sorted (fun a b => b.1 ≤ a.1) ∧
    (sortByCountDesc l).Perm l ∧
    (sortByCountDesc l).filter (fun e => decide (e.1 = c)) =
      l.filter (fun e => decide (e.1 = c)) :=
  ⟨sortByCountDesc_sorted l, sortByCountDesc_perm l,
    sortByCountDesc_filter_count l c⟩

theorem dbscanImplLabels_length (pixels : List Pt) (eps : ℚ) (minS : ℕ) :
    (dbscanImplLabels pixels eps minS).length = pixels.length := by
  unfold dbscanImplLabels
  rw [List.length_map, List.length_finRange]

/-- C5: the counts of the produced cluster summaries sum to at most the
number of input points, with equality exactly when no point is labeled
noise. -/
theorem claim_C5_count_conservation (pixels : List Pt) (eps : ℚ) (minS : ℕ)
    (heps : 0 < eps) (hmin : 1 ≤ minS) :
    ((runDbscan pixels eps minS).map (fun cc => cc.1)).sum ≤ pixels.length ∧
    (((runDbscan pixels eps minS).map (fun cc => cc.1)).sum = pixels.length ↔
      ¬ (-1 ∈ dbscanImplLabels pixels eps minS)) := by
  have hlen := dbscanImplLabels_length pixels eps minS
  have hperm : ((runDbscan pixels eps minS).map (fun cc => cc.1)).Perm
      ((aggregateClusters pixels (dbscanImplLabels pixels eps minS)).map
        (fun cc => cc.1)) :=
    (sortByCountDesc_perm _).map _
  have hsum : ((runDbscan pixels eps minS).map (fun cc => cc.1)).sum =
      ((dbscanImplLabels pixels eps minS).filter
        (fun k => decide (k ≠ -1))).length := by
    rw [hperm.sum_eq]
    unfold aggregateClusters
    rw [List.map_map]
    have h1 : ((uniqueLabels (dbscanImplLabels pixels eps minS)).map
          ((fun cc : ℕ × Pt => cc.1) ∘ fun k =>
            ((clusterMembers pixels (dbscanImplLabels pixels eps minS) k).length,
             centroid (clusterMembers pixels (dbscanImplLabels pixels eps minS) k)))) =
        (uniqueLabels (dbscanImplLabels pixels eps minS)).map
          (fun k => (dbscanImplLabels pixels eps minS).count k) :=
      List.map_congr_left (fun k _ =>
        clusterMembers_length pixels (dbscanImplLabels pixels eps minS) hlen k)
    rw [h1, sum_counts_eq]
  refine ⟨?_, ?_⟩
  · rw [hsum, ← hlen]
    exact List.length_filter_le _ _
  · rw [hsum, ← hlen, ← List.countP_eq_length_filter, List.countP_eq_length]
    constructor
    · intro h hneg
      have := h _ hneg
      simp at this
    · intro h a ha
      simp only [decide_eq_true_eq]
      intro e
      exact h (e ▸ ha)

theorem claim_C5_witness :
    ((runDbscan [((1:ℚ),0,0), (0,0,0)] (1/10) 1).map (fun cc => cc.1)).sum ≤
        ([((1:ℚ),0,0), (0,0,0)] : List Pt).length ∧
    (((runDbscan [((1:ℚ),0,0), (0,0,0)] (1/10) 1).map (fun cc => cc.1)).sum =
        ([((1:ℚ),0,0), (0,0,0)] : List Pt).length ↔
      ¬ (-1 ∈ dbscanImplLabels [((1:ℚ),0,0), (0,0,0)] (1/10) 1)) :=
  claim_C5_count_conservation _ _ _ (by norm_num) (le_refl 1)

/-- C6: aggregation yields exactly one summary per distinct non-noise label
(the enumerated label list has no duplicates, contains every non-noise label
that occurs and never the noise sentinel -1), and for each such label the
count is the number of points carrying the label while the centroid is the
per-channel sum of those points divided by that count. -/
theorem claim_C6_aggregation_per_label (pixels : List Pt) (labels : List Int)
    (hlen : labels.length = pixels.length) :
    (uniqueLabels labels).Nodup ∧
    (∀ k : Int, k ∈ uniqueLabels labels ↔ k ∈ labels ∧ k ≠ -1) ∧
    aggregateClusters pixels labels =
      (uniqueLabels labels).map (fun k =>
        (labels.count k,
         ((clusterMembers pixels labels k).map (fun p => p.1)).sum /
           (labels.count k : ℚ),
         ((clusterMembers pixels labels k).map (fun p => p.2.1)).sum /
           (labels.count k : ℚ),
         ((clusterMembers pixels labels k).map (fun p => p.2.2)).sum /
           (labels.count k : ℚ))) := by
  refine ⟨uniqueLabels_nodup labels, mem_uniqueLabels labels, ?_⟩
  unfold aggregateClusters
  apply List.map_congr_left
  intro k _
  rw [← clusterMembers_length pixels labels hlen k]
  rfl

theorem claim_C6_witness :
    (uniqueLabels [0, -1]).Nodup ∧
    (∀ k : Int, k ∈ uniqueLabels [0, -1] ↔ k ∈ ([0, -1] : List Int) ∧ k ≠ -1) ∧
    aggregateClusters [((1:ℚ),0,0), (0,0,0)] [0, -1] =
      (uniqueLabels [0, -1]).map (fun k =>
        (([0, -1] : List Int).count k,
         ((clusterMembers [((1:ℚ),0,0), (0,0,0)] [0, -1] k).map
             (fun p => p.1)).sum / (([0, -1] : List Int).count k : ℚ),
         ((clusterMembers [((1:ℚ),0,0), (0,0,0)] [0, -1] k).map
             (fun p => p.2.1)).sum / (([0, -1] : List Int).count k : ℚ),
         ((clusterMembers [((1:ℚ),0,0), (0,0,0)] [0, -1] k).map
             (fun p => p.2.2)).sum / (([0, -1] : List Int).count k : ℚ))) :=
  claim_C6_aggregation_per_label [((1:ℚ),0,0), (0,0,0)] [0, -1] rfl

theorem mean_mem_unit (xs : List ℚ) (hne : 0 < xs.length)
    (h0 : ∀ x ∈ xs, 0 ≤ x) (h1 : ∀ x ∈ xs, x ≤ 1) :
    0 ≤ xs.sum / (xs.length : ℚ) ∧ xs.sum / (xs.length : ℚ) ≤ 1 := by
  have hlen : (0:ℚ) < (xs.length : ℚ) := by exact_mod_cast hne
  constructor
  · exact div_nonneg (List.sum_nonneg h0) hlen.le
  · rw [div_le_one hlen]
    calc xs.sum ≤ xs.length • (1:ℚ) := List.sum_le_card_nsmul xs 1 h1
      _ = (xs.length : ℚ) := by simp

theorem clusterMembers_subset (pixels : List Pt) (labels : List Int)
    (k : Int) : ∀ p ∈ clusterMembers pixels labels k, p ∈ pixels := by
  intro p hp
  unfold clusterMembers at hp
  obtain ⟨pl, hpl, rfl⟩ := List.mem_map.mp hp
  exact (List.of_mem_zip (List.mem_of_mem_filter hpl)).1

/-- C7: when every channel of every input point lies in [0,1], every channel
of every produced cluster centroid lies in [0,1]. -/
theorem claim_C7_centroid_bounds (pixels : List Pt) (eps : ℚ) (minS : ℕ)
    (hb : ∀ p ∈ pixels, (0 ≤ p.1 ∧ p.1 ≤ 1) ∧ (0 ≤ p.2.1 ∧ p.2.1 ≤ 1) ∧
      (0 ≤ p.2.2 ∧ p.2.2 ≤ 1)) :
    ∀ cc ∈ runDbscan pixels eps minS,
      (0 ≤ cc.2.1 ∧ cc.2.1 ≤ 1) ∧ (0 ≤ cc.2.2.1 ∧ cc.2.2.1 ≤ 1) ∧
      (0 ≤ cc.2.2.2 ∧ cc.2.2.2 ≤ 1) := by
  intro cc hcc
  have hmem : cc ∈ aggregateClusters pixels (dbscanImplLabels pixels eps minS) :=
    (sortByCountDesc_perm
      (aggregateClusters pixels (dbscanImplLabels pixels eps minS))).mem_iff.mp hcc
  unfold aggregateClusters at hmem
  obtain ⟨k, hk, rfl⟩ := List.mem_map.mp hmem
  have hkl := (mem_uniqueLabels _ k).mp hk
  have hlen := dbscanImplLabels_length pixels eps minS
  set M := clusterMembers pixels (dbscanImplLabels pixels eps minS) k with hM
  have hpos : 0 < M.length := by
    rw [hM, clusterMembers_length pixels _ hlen k]
    exact List.count_pos_iff.mpr hkl.1
  have hsub : ∀ p ∈ M, p ∈ pixels :=
    clusterMembers_subset pixels (dbscanImplLabels pixels eps minS) k
  have hch1 := mean_mem_unit (M.map (fun p => p.1))
    (by simpa using hpos)
    (by
      intro x hx
      obtain ⟨p, hp, rfl⟩ := List.mem_map.mp hx
      exact ((hb p (hsub p hp)).1).1)
    (by
      intro x hx
      obtain ⟨p, hp, rfl⟩ := List.mem_map.mp hx
      exact ((hb p (hsub p hp)).1).2)
  have hch2 := mean_mem_unit (M.map (fun p => p.2.1))
    (by simpa using hpos)
    (by
      intro x hx
      obtain ⟨p, hp, rfl⟩ := List.mem_map.mp hx
      exact ((hb p (hsub p hp)).2.1).1)
    (by
      intro x hx
      obtain ⟨p, hp, rfl⟩ := List.mem_map.mp hx
      exact ((hb p (hsub p hp)).2.1).2)
  have hch3 := mean_mem_unit (M.map (fun p => p.2.2))
    (by simpa using hpos)
    (by
      intro x hx
      obtain ⟨p, hp, rfl⟩ := List.mem_map.mp hx
      exact ((hb p (hsub p hp)).2.2).1)
    (by
      intro x hx
      obtain ⟨p, hp, rfl⟩ := List.mem_map.mp hx
      exact ((hb p (hsub p hp)).2.2).2)
  simp only [List.length_map] at hch1 hch2 hch3
  simp only [centroid]
  exact ⟨hch1, hch2, hch3⟩

theorem claim_C7_witness :
    ((0:ℚ) ≤ 1 ∧ (1:ℚ) ≤ 1) ∧ ((0:ℚ) ≤ 0 ∧ (0:ℚ) ≤ 1) ∧
      ((0:ℚ) ≤ 0 ∧ (0:ℚ) ≤ 1) :=
  claim_C7_centroid_bounds [((1:ℚ),0,0), (0,0,0)] (1/10) 1
    (by
      intro p hp
      simp only [List.mem_cons, List.not_mem_nil, or_false] at hp
      rcases hp with rfl | rfl <;> norm_num)
    (1, ((1:ℚ),0,0)) (by with_unfolding_all decide)

/-- C3: each presented entry carries percentage 100 * count / totalPoints
with totalPoints the full clustered point count; entries below minPercentage
are dropped, entries at or above it are kept, and the survivors keep the
descending-count order. -/
theorem claim_C3_percentage_filter (pixels : List Pt) (eps : ℚ) (minS : ℕ)
    (minPct : ℚ) :
    (∀ e ∈ presentPalette (runDbscan pixels eps minS) pixels.length minPct,
        e.2.2 = 100 * (e.1 : ℚ) / (pixels.length : ℚ) ∧ ¬ e.2.2 < minPct) ∧
    (∀ cc ∈ runDbscan pixels eps minS,
        ¬ ((cc.1 : ℚ) / (pixels.length : ℚ) * 100 < minPct) →
          (cc.1, cc.2, (cc.1 : ℚ) / (pixels.length : ℚ) * 100) ∈
            presentPalette (runDbscan pixels eps minS) pixels.length minPct) ∧
    (presentPalette (runDbscan pixels eps minS) pixels.length minPct).Sublist
      ((runDbscan pixels eps minS).map
        (fun cc => (cc.1, cc.2, (cc.1 : ℚ) / (pixels.length : ℚ) * 100))) ∧
    (presentPalette (runDbscan pixels eps minS) pixels.length minPct).Sorted
      (fun a b => b.1 ≤ a.1) := by
  refine ⟨?_, ?_, ?_, ?_⟩
  · intro e he
    unfold presentPalette at he
    obtain ⟨hemem, hdec⟩ := List.mem_filter.mp he
    obtain ⟨cc, hcc, rfl⟩ := List.mem_map.mp hemem
    refine ⟨?_, by simpa using hdec⟩
    show (cc.1 : ℚ) / (pixels.length : ℚ) * 100 =
      100 * (cc.1 : ℚ) / (pixels.length : ℚ)
    ring
  · intro cc hcc hpct
    unfold presentPalette
    exact List.mem_filter.mpr
      ⟨List.mem_map.mpr ⟨cc, hcc, rfl⟩, by simpa using hpct⟩
  · exact List.filter_sublist _
  · have h1 : (runDbscan pixels eps minS).Sorted (fun a b => b.1 ≤ a.1) :=
      sortByCountDesc_sorted _
    have h2 : ((runDbscan pixels eps minS).map
        (fun cc => (cc.1, cc.2, (cc.1 : ℚ) / (pixels.length : ℚ) * 100))).Pairwise
          (fun a b : PaletteEntry => b.1 ≤ a.1) :=
      List.Pairwise.map _ (fun a b h => h) h1
    exact List.Pairwise.sublist (List.filter_sublist _) h2

theorem claim_C3_witness :
    ((1 : ℕ), ((0:ℚ),0,0), (100:ℚ)) ∈
      presentPalette (runDbscan [((0:ℚ),0,0)] 1 1) 1 50 ∧
    (100 : ℚ) = 100 * ((1 : ℕ) : ℚ) / ((1 : ℕ) : ℚ) ∧ ¬ (100 : ℚ) < 50 := by
  have hm : ((1 : ℕ), ((0:ℚ),0,0), (100:ℚ)) ∈
      presentPalette (runDbscan [((0:ℚ),0,0)] 1 1) 1 50 := by
    with_unfolding_all decide
  have h := (claim_C3_percentage_filter [((0:ℚ),0,0)] 1 1 50).1 _ hm
  exact ⟨hm, by norm_num, h.2⟩

/-- C4: two invocations with identical point sequences, identical eps and
identical minSamples produce identical labels and an identical ranked
palette (counts, centroids, percentages and their order); in this pure
embedding determinism is definitional. -/
theorem claim_C4_determinism (ps1 ps2 : List Pt) (eps1 eps2 : ℚ)
    (m1 m2 : ℕ) (minPct : ℚ) (hps : ps1 = ps2) (heps : eps1 = eps2)
    (hm : m1 = m2) :
    dbscanImplLabels ps1 eps1 m1 = dbscanImplLabels ps2 eps2 m2 ∧
    runDbscan ps1 eps1 m1 = runDbscan ps2 eps2 m2 ∧
    presentPalette (runDbscan ps1 eps1 m1) ps1.length minPct =
      presentPalette (runDbscan ps2 eps2 m2) ps2.length minPct := by
  subst hps
  subst heps
  subst hm
  exact ⟨rfl, rfl, rfl⟩

theorem claim_C4_witness :
    dbscanImplLabels [((0:ℚ),0,0)] 1 1 = dbscanImplLabels [((0:ℚ),0,0)] 1 1 ∧
    runDbscan [((0:ℚ),0,0)] 1 1 = runDbscan [((0:ℚ),0,0)] 1 1 ∧
    presentPalette (runDbscan [((0:ℚ),0,0)] 1 1)
        ([((0:ℚ),0,0)] : List Pt).length 0 =
      presentPalette (runDbscan [((0:ℚ),0,0)] 1 1)
        ([((0:ℚ),0,0)] : List Pt).length 0 :=
  claim_C4_determinism _ _ _ _ _ _ 0 rfl rfl rfl

/-- C8: a call with non-positive eps or minSamples below one surfaces a
ConfigurationError immediately, before any clustering work: the checked
entry point returns the error without evaluating the pipeline. -/
theorem claim_C8_config_error (pixels : List Pt) (eps : ℚ) (minS : ℕ)
    (h : eps ≤ 0 ∨ minS < 1) :
    runDbscanChecked pixels eps minS =
      Except.error PaletteError.configurationError := by
  unfold runDbscanChecked
  rw [if_pos h]

theorem claim_C8_witness :
    runDbscanChecked [((0:ℚ),0,0)] 0 1 =
      Except.error PaletteError.configurationError :=
  claim_C8_config_error _ _ _ (Or.inl le_rfl)

/-- C9: an empty point set with valid parameters yields an empty labels
sequence and an empty pipeline result, and no error is raised. -/
theorem claim_C9_empty_input (eps : ℚ) (minS : ℕ) (minPct : ℚ)
    (heps : 0 < eps) (hmin : 1 ≤ minS) :
    dbscanImplLabels [] eps minS = [] ∧
    runDbscan [] eps minS = [] ∧
    runDbscanChecked [] eps minS = Except.ok [] ∧
    presentPalette (runDbscan [] eps minS) 0 minPct = [] := by
  have hlab : dbscanImplLabels [] eps minS = [] := by
    unfold dbscanImplLabels
    simp
  have hrun : runDbscan [] eps minS = [] := rfl
  refine ⟨hlab, hrun, ?_, by rw [hrun]; rfl⟩
  unfold runDbscanChecked
  rw [if_neg, hrun]
  rintro (h | h)
  · exact absurd heps (not_lt.mpr h)
  · omega

theorem claim_C9_witness :
    dbscanImplLabels [] 1 1 = [] ∧
    runDbscan [] 1 1 = [] ∧
    runDbscanChecked [] 1 1 = Except.ok [] ∧
    presentPalette (runDbscan [] 1 1) 0 0 = [] :=
  claim_C9_empty_input 1 1 0 (by norm_num) (le_refl 1)

theorem hexDigitChar_mem (n : ℕ) : hexDigitChar n ∈ hexDigits := by
  unfold hexDigitChar
  by_cases h : n < hexDigits.length
  · rw [List.getD_eq_getElem hexDigits _ h]
    exact List.getElem_mem h
  · rw [List.getD_eq_default hexDigits _ (le_of_not_lt h)]
    unfold hexDigits
    decide

theorem toByte_bounds (c : ℚ) (h0 : 0 ≤ c) (h1 : c ≤ 1) :
    0 ≤ toByte c ∧ toByte c ≤ 255 ∧ toByte c = ⌊c * 255⌋ := by
  have hnn : 0 ≤ c * 255 := by positivity
  have hfl : toByte c = ⌊c * 255⌋ := by
    unfold toByte pyInt
    rw [if_pos hnn]
  refine ⟨?_, ?_, hfl⟩
  · rw [hfl]
    exact Int.floor_nonneg.mpr hnn
  · rw [hfl]
    have hle : c * 255 ≤ 255 := by nlinarith
    calc ⌊c * 255⌋ ≤ ⌊(255:ℚ)⌋ := Int.floor_le_floor hle
      _ = 255 := by norm_num

/-- C10: on a centroid triple with all channels in [0,1], the color formatter
produces the three integers obtained by multiplying each channel by 255 and
truncating toward zero (equal to the floor on this nonnegative range), each
within [0,255], and the fixed-width lowercase string made of a hash sign
followed by two hex digits per byte: seven characters in total, every
character after the hash a lowercase hexadecimal digit. -/
theorem claim_C10_color_formatter (r g b : ℚ)
    (hr : 0 ≤ r ∧ r ≤ 1) (hg : 0 ≤ g ∧ g ≤ 1) (hb : 0 ≤ b ∧ b ≤ 1) :
    (0 ≤ toByte r ∧ toByte r ≤ 255) ∧
    (0 ≤ toByte g ∧ toByte g ≤ 255) ∧
    (0 ≤ toByte b ∧ toByte b ≤ 255) ∧
    toByte r = ⌊r * 255⌋ ∧ toByte g = ⌊g * 255⌋ ∧ toByte b = ⌊b * 255⌋ ∧
    (hexColor (r, g, b)).data =
      '#' :: (byteHex (toByte r) ++ byteHex (toByte g) ++ byteHex (toByte b)) ∧
    (hexColor (r, g, b)).length = 7 ∧
    ∀ ch ∈ (hexColor (r, g, b)).data.tail, ch ∈ hexDigits := by
  obtain ⟨hr0, hr1, hrf⟩ := toByte_bounds r hr.1 hr.2
  obtain ⟨hg0, hg1, hgf⟩ := toByte_bounds g hg.1 hg.2
  obtain ⟨hb0, hb1, hbf⟩ := toByte_bounds b hb.1 hb.2
  refine ⟨⟨hr0, hr1⟩, ⟨hg0, hg1⟩, ⟨hb0, hb1⟩, hrf, hgf, hbf, rfl, rfl, ?_⟩
  intro ch hch
  simp only [hexColor, byteHex, List.cons_append, List.tail_cons,
    List.mem_append, List.mem_cons, List.not_mem_nil, or_false,
    false_or, or_assoc] at hch
  rcases hch with rfl | rfl | rfl | rfl | rfl | rfl <;>
    exact hexDigitChar_mem _

theorem claim_C10_witness :
    ((0 : Int) ≤ toByte (1/2) ∧ toByte (1/2) ≤ 255) ∧
    ((0 : Int) ≤ toByte 0 ∧ toByte 0 ≤ 255) ∧
    ((0 : Int) ≤ toByte 1 ∧ toByte 1 ≤ 255) ∧
    toByte (1/2) = ⌊(1/2 : ℚ) * 255⌋ ∧ toByte 0 = ⌊(0 : ℚ) * 255⌋ ∧
    toByte 1 = ⌊(1 : ℚ) * 255⌋ ∧
    (hexColor (1/2, 0, 1)).data =
      '#' :: (byteHex (toByte (1/2)) ++ byteHex (toByte 0) ++
        byteHex (toByte 1)) ∧
    (hexColor (1/2, 0, 1)).length = 7 ∧
    ∀ ch ∈ (hexColor (1/2, 0, 1)).data.tail, ch ∈ hexDigits :=
  claim_C10_color_formatter (1/2) 0 1 (by norm_num) (by norm_num)
    (by norm_num)
